import Mathlib

/-!
Verification development for the async-ior benchmark harness.

Each Rust function under scrutiny is shallowly embedded as an executable
Lean definition, translated from the source:

  * `crates/ior-core/src/data_pattern.rs` — pattern generate / update / verify
  * `crates/ior-bench/src/runner.rs`      — offset geometry (sequential and random)
  * `crates/ior-backend-posix/src/lib.rs` — synchronous transfer retry loop, delete
  * `crates/mdtest-bench/src/params.rs`   — derived tree-shape parameters
  * `crates/mdtest-bench/src/tree.rs`     — per-directory item loop with stonewall
  * `crates/ior-core/src/backend_options.rs` — backend option extraction

Machine integers (u64/i64) are modelled as `ℕ`/`ℤ` with explicit `% 2 ^ 64`
where the Rust code relies on wrapping arithmetic.  Buffers are `List ℕ`
of byte values; `to_ne_bytes`/`from_ne_bytes` are modelled little-endian
(host order, consistent within a run, as the source requires).
-/

namespace AsyncIor

/-! ### Data pattern engine (`ior-core/src/data_pattern.rs`) -/

/-- `DataPacketType` from `data_pattern.rs`. -/
inductive DataPacketType
  | Timestamp
  | Offset
  deriving DecidableEq, Repr

/-- The 64-bit timestamp-pattern word for word index `i`:
Rust `rank_hi | ((seed as u64).wrapping_add(i as u64) & 0xFFFF_FFFF)` with
`rank_hi = (pretend_rank as u64) << 32`.  The high and low halves do not
overlap, so `|||` is `+`. -/
def tsWord (seed p i : ℕ) : ℕ :=
  p % 2 ^ 32 * 2 ^ 32 + (seed + i) % 2 ^ 32

/-- The 64-bit offset-stamp word for stamp index `k`:
Rust `rank_hi | (((offset as u64).wrapping_mul(k.wrapping_add(1))) & 0xFFFF_FFFF)`. -/
def stampWord (offset p k : ℕ) : ℕ :=
  p % 2 ^ 32 * 2 ^ 32 + offset * (k + 1) % 2 ^ 32

/-- Little-endian byte decomposition of a 64-bit word (`u64::to_ne_bytes`). -/
def wordBytes (v : ℕ) : List ℕ :=
  [v % 256, v / 256 % 256, v / 256 ^ 2 % 256, v / 256 ^ 3 % 256,
   v / 256 ^ 4 % 256, v / 256 ^ 5 % 256, v / 256 ^ 6 % 256, v / 256 ^ 7 % 256]

/-- Little-endian byte recomposition (`u64::from_ne_bytes`). -/
def bytesToWord (l : List ℕ) : ℕ :=
  l.foldr (fun b acc => b + 256 * acc) 0

/-- Overwrite, for each word index `i < buf.length / 8`, the byte slice
`buf[8*i .. 8*i+8]` with `wordBytes v` whenever `f i = some v`, leaving the
slice alone when `f i = none` and leaving the trailing `buf.length % 8`
bytes untouched.  This is the common shape of the word loops in
`generate_memory_pattern` and `update_write_pattern`. -/
def fillWordsAux (buf : List ℕ) (f : ℕ → Option ℕ) : ℕ → ℕ → List ℕ
  | i, 0 => buf.drop (8 * i)
  | i, n + 1 =>
    (match f i with
     | some v => wordBytes v
     | none => (buf.drop (8 * i)).take 8) ++ fillWordsAux buf f (i + 1) n

/-- See `fillWordsAux`; starts at word index 0 and covers `buf.length / 8` words. -/
def fillWords (buf : List ℕ) (f : ℕ → Option ℕ) : List ℕ :=
  fillWordsAux buf f 0 (buf.length / 8)

/-- `generate_memory_pattern` (`data_pattern.rs:24-37`): fill every whole
64-bit word at index `i` with `tsWord seed p i`.  The `_data_type`
argument is unused in the source and kept here for fidelity. -/
def generate_memory_pattern (buf : List ℕ) (seed p : ℕ)
    ( _dataType : DataPacketType) : List ℕ :=
  fillWords buf (fun i => some (tsWord seed p i))

/-- `update_write_pattern` (`data_pattern.rs:46-70`): a no-op unless the
packet type is `Offset`; otherwise stamp the word at every 512-word
boundary `pos = 512 * k < words` with `stampWord offset p k`. -/
def update_write_pattern (offset : ℕ) (buf : List ℕ) ( _seed p : ℕ)
    (dataType : DataPacketType) : List ℕ :=
  if dataType = DataPacketType.Offset then
    fillWords buf (fun i =>
      if i % 512 = 0 then some (stampWord offset p (i / 512)) else none)
  else
    buf

/-- The word `verify_pattern` expects at word index `i`
(`data_pattern.rs:89-105`): the 512-stride stamp in `Offset` mode,
the timestamp word otherwise. -/
def expectedWord (offset seed p : ℕ) (dataType : DataPacketType) (i : ℕ) : ℕ :=
  if dataType = DataPacketType.Offset ∧ i % 512 = 0 then
    stampWord offset p (i / 512)
  else
    tsWord seed p i

/-- The 64-bit word read back from byte slice `buf[8*i .. 8*i+8]`
(`u64::from_ne_bytes(buf[i*8..(i+1)*8])`). -/
def readWord (buf : List ℕ) (i : ℕ) : ℕ :=
  bytesToWord ((buf.drop (8 * i)).take 8)

/-- `verify_pattern` (`data_pattern.rs:77-113`): compare each of the
`buf.length / 8` whole words against the expected pattern and count
mismatches. -/
def verify_pattern (offset : ℕ) (buf : List ℕ) (seed p : ℕ)
    (dataType : DataPacketType) : ℕ :=
  ((List.range (buf.length / 8)).filter (fun i =>
    readWord buf i ≠ expectedWord offset seed p dataType i)).length

/-! ### Sequential offset geometry (`ior-bench/src/runner.rs`, `write_or_read`) -/

/-- The list of offsets the sequential inner loop of `write_or_read`
(`runner.rs:240-311`) issues, in order, when `random_offset = false`,
`deadline_for_stonewalling = 0` and `min_time_duration = 0` (single pass,
no stonewall): the outer loop runs `seg` over `0..segment_count`, the
inner loop runs `j` over `0..block_size / transfer_size`, and the offset
is `j*T + seg*B` in file-per-process mode and
`j*T + seg*N*B + pretend_rank*B` for a shared file (`runner.rs:254-269`). -/
def seqOffsetList (filePerProc : Bool) (T B S N p : ℕ) : List ℕ :=
  (List.range S).flatMap (fun s =>
    (List.range (B / T)).map (fun j =>
      if filePerProc then j * T + s * B else j * T + s * N * B + p * B))

/-! ### Random offset geometry (`ior-bench/src/runner.rs:517-595`) -/

/-- `lcg_next` (`runner.rs:579-581`):
`state.wrapping_mul(6364136223846793005).wrapping_add(1442695040888963407)`
on `u64`. -/
def lcg_next (state : ℕ) : ℕ :=
  (state * 6364136223846793005 + 1442695040888963407) % 2 ^ 64

/-- The LCG state after `k` applications of `lcg_next` to the seed. -/
def lcgIter (seed : ℕ) : ℕ → ℕ
  | 0 => seed
  | k + 1 => lcg_next (lcgIter seed k)

/-- The rank the shared-file assignment pass gives to transfer index `idx`
(`runner.rs:550-552` and `561-563`): advance the LCG once per index and
take `((state >> 33) as i32).rem_euclid(num_tasks)`.  `state >> 33` is
below `2^31`, so the `u64 → i32` cast is value-preserving and
`rem_euclid` is plain `%`. -/
def assignedRank (seed N idx : ℕ) : ℕ :=
  lcgIter seed (idx + 1) / 2 ^ 33 % N

/-- One `arr.swap(i, j)` step (`slice::swap` in `fisher_yates_shuffle`). -/
def fySwap (arr : List ℕ) (i j : ℕ) : List ℕ :=
  (arr.set i (arr.getD j 0)).set j (arr.getD i 0)

/-- The loop of `fisher_yates_shuffle` (`runner.rs:590-594`): the argument
is the current index `i`, walked from `n - 1` down to `1`; each step
advances the LCG and swaps `arr[i]` with `arr[(state >> 33) % (i + 1)]`. -/
def fyGo (arr : List ℕ) (state : ℕ) : ℕ → List ℕ
  | 0 => arr
  | i + 1 =>
    fyGo (fySwap arr (i + 1) (lcg_next state / 2 ^ 33 % (i + 2))) (lcg_next state) i

/-- `fisher_yates_shuffle` (`runner.rs:584-595`): returns `arr` unchanged
when `arr.length ≤ 1`, otherwise runs the swap loop from `n - 1` down
to `1` seeded with `seed`. -/
def fisher_yates_shuffle (arr : List ℕ) (seed : ℕ) : List ℕ :=
  if arr.length ≤ 1 then arr else fyGo arr seed (arr.length - 1)

/-- `get_offset_array_random`, file-per-process branch (`runner.rs:536-542`):
the offsets `j * T` for `j ∈ [0, B/T)` in order, then shuffled with seed
`seed.wrapping_add(pretend_rank as u64)`. -/
def get_offset_array_random_fpp (T B seed p : ℕ) : List ℕ :=
  fisher_yates_shuffle ((List.range (B / T)).map (· * T)) ((seed + p) % 2 ^ 64)

/-- `get_offset_array_random`, shared-file branch (`runner.rs:543-575`):
for each `xfer_idx ∈ [0, (B/T)*N)` whose LCG-assigned rank equals the
pretend rank, collect `(idx % (B/T)) * T + (idx / (B/T)) * B`, then
shuffle with seed `seed.wrapping_add(pretend_rank as u64)`.  (The first
counting pass of the source only pre-sizes the vector.)  The seed is the
value after the broadcast from rank 0, identical on every rank. -/
def get_offset_array_random_shared (T B N seed p : ℕ) : List ℕ :=
  fisher_yates_shuffle
    (((List.range (B / T * N)).filter (fun idx => assignedRank seed N idx = p)).map
      (fun idx => idx % (B / T) * T + idx / (B / T) * B))
    ((seed + p) % 2 ^ 64)

/-! ### Synchronous transfer retry loop (`ior-backend-posix/src/lib.rs:170-213`) -/

/-- `MAX_RETRY` (`lib.rs:14`). -/
def MAX_RETRY : ℕ := 10000

/-- The `while remaining > 0` loop of `execute_posix_io`, shallowly
embedded as a state machine.  `calls k` is the return value of the
`k`-th `pread`/`pwrite` call (an arbitrary outcome sequence).  `fuel`
counts the short-transfer continuations the retry bound still allows:
at loop entry with `retries = r` the fuel is `MAX_RETRY - 1 - r`, so
the `retries >= MAX_RETRY` break corresponds to `fuel = 0`.  Returns
the final `remaining` (`none` on a negative return, i.e. `Err(())`)
together with the number of backend calls made. -/
def execGo (calls : ℕ → ℤ) : ℕ → ℤ → ℕ → Option ℤ × ℕ
  | k, remaining, 0 =>
    if remaining ≤ 0 then (some remaining, 0)
    else
      let rc := calls k
      if rc < 0 then (none, 1)
      else if rc = 0 then (some remaining, 1)
      else (some (remaining - rc), 1)
  | k, remaining, f + 1 =>
    if remaining ≤ 0 then (some remaining, 0)
    else
      let rc := calls k
      if rc < 0 then (none, 1)
      else if rc = 0 then (some remaining, 1)
      else
        let rem := remaining - rc
        if 0 < rem then
          let r := execGo calls (k + 1) rem f
          (r.1, r.2 + 1)
        else (some rem, 1)

/-- `execute_posix_io` (`lib.rs:170-213`): run the retry loop from
`remaining = len`, `retries = 0` and return `Ok(len - remaining)`. -/
def execute_posix_io (calls : ℕ → ℤ) (len : ℤ) : Option ℤ :=
  ((execGo calls 0 len (MAX_RETRY - 1)).1).map (fun rem => len - rem)

/-- The number of `pread`/`pwrite` calls `execute_posix_io` performs. -/
def callCount (calls : ℕ → ℤ) (len : ℤ) : ℕ :=
  (execGo calls 0 len (MAX_RETRY - 1)).2

/-! ### POSIX delete (`ior-backend-posix/src/lib.rs:329-339`) -/

/-- Error type; only the constructors the modelled code produces. -/
inductive IorErr
  | Io : ℤ → IorErr
  deriving DecidableEq, Repr

/-- `libc::ENOENT` on Linux. -/
def ENOENT : ℤ := 2

/-- `PosixBackend::delete` (`lib.rs:329-339`) as a function of the
`unlink` outcome: `none` models a successful unlink, `some e` models
`rc < 0` with `errno = e`.  Any errno other than `ENOENT` is reported
as `Io(errno)`; `ENOENT` is silently swallowed.  The function receives
no information about its caller. -/
def posix_delete (unlinkErrno : Option ℤ) : Except IorErr Unit :=
  match unlinkErrno with
  | none => Except.ok ()
  | some e => if e ≠ ENOENT then Except.error (IorErr.Io e) else Except.ok ()

/-! ### Metadata item loop with stonewall (`mdtest-bench/src/tree.rs:203-243`) -/

/-- The `for i in 0..params.items_per_dir` loop of
`create_remove_items_helper`.  `clock i` is the value `now()` returns at
the top of iteration `i` (seconds on this thread's monotonic clock,
modelled as `ℚ`; the concrete instances below use values on which `f64`
arithmetic is exact).  At each iteration the source first checks
`stone_wall_timer_seconds > 0 && (now() - stonewall_start) > stone_wall_timer_seconds`
and returns the current index `i` when it fires; completing the loop
returns `items_per_dir`.  The first argument is the current index, the
second the iterations left. -/
def helperLoop (stoneWallTimer : ℤ) (stonewallStart : ℚ) (clock : ℕ → ℚ) :
    ℕ → ℕ → ℕ
  | i, 0 => i
  | i, n + 1 =>
    if 0 < stoneWallTimer ∧ (stoneWallTimer : ℚ) < clock i - stonewallStart then i
    else helperLoop stoneWallTimer stonewallStart clock (i + 1) n

/-- `create_remove_items_helper` (`tree.rs:203-243`), item count only:
runs the per-item loop from index 0 and returns the number of items
processed (the filesystem side effects do not affect the count). -/
def create_remove_items_helper (itemsPerDir : ℕ) (stoneWallTimer : ℤ)
    (stonewallStart : ℚ) (clock : ℕ → ℚ) : ℕ :=
  helperLoop stoneWallTimer stonewallStart clock 0 itemsPerDir

/-- The remove phase of `file_test` / `directory_test`
(`runner.rs:376-391` and `279-294`) calls `create_remove_items` with
`stonewall_start = 0.0` ("no stonewall for remove"); with `depth = 0`
and `leaf_only = false` this is one `create_remove_items_helper` call on
the root with `item_num = 0` and start `0.0`. -/
def removePhaseItemsDone (itemsPerDir : ℕ) (stoneWallTimer : ℤ)
    (clock : ℕ → ℚ) : ℕ :=
  create_remove_items_helper itemsPerDir stoneWallTimer 0 clock

/-- The create phase of `file_test` / `directory_test`
(`runner.rs:321-338`) passes the phase start time `start = now()` as
`stonewall_start`. -/
def createPhaseItemsDone (itemsPerDir : ℕ) (stoneWallTimer : ℤ)
    (phaseStart : ℚ) (clock : ℕ → ℚ) : ℕ :=
  create_remove_items_helper itemsPerDir stoneWallTimer phaseStart clock

/-- `mdtest_stat` (`tree.rs:286-323`) iterates `i` over `0..stop_items`
unconditionally — its loop body contains no stonewall check — so the
number of items it stats is always `stop_items`. -/
def mdtest_stat_items (stopItems : ℕ) : ℕ :=
  stopItems

/-! ### Derived tree-shape parameters (`mdtest-bench/src/params.rs:113-157`) -/

/-- Round a rational to the nearest integer, ties to even — the IEEE 754
rounding of a value that sits exactly between two integers. -/
def roundHalfEven (q : ℚ) : ℤ :=
  if q - (⌊q⌋ : ℚ) < 1 / 2 then ⌊q⌋
  else if 1 / 2 < q - (⌊q⌋ : ℚ) then ⌊q⌋ + 1
  else if ⌊q⌋ % 2 = 0 then ⌊q⌋ else ⌊q⌋ + 1

/-- IEEE 754 binary64 rounding (round to nearest, ties to even) of a
positive rational: scale by the ulp `2^(⌊log2 q⌋ - 52)` so the scaled
value lies in `[2^52, 2^53)`, round to the nearest (even) integer and
scale back.  Nonpositive inputs (which the modelled pipeline never
produces except exact 0) map to 0.  The exponent is not clamped: the
model is faithful for finite normal magnitudes (below `2^1024`), which
covers every value the theorems below touch; overflow to infinity and
subnormals are outside the modelled range. -/
def roundF64 (q : ℚ) : ℚ :=
  if q ≤ 0 then 0
  else (roundHalfEven (q / 2 ^ (Int.log 2 q - 52)) : ℚ) * 2 ^ (Int.log 2 q - 52)

/-- A correctly rounded `f64` multiplication. -/
def fmul (x y : ℚ) : ℚ := roundF64 (x * y)

/-- A correctly rounded `f64` subtraction. -/
def fsub (x y : ℚ) : ℚ := roundF64 (x - y)

/-- A correctly rounded `f64` division. -/
def fdiv (x y : ℚ) : ℚ := roundF64 (x / y)

/-- `f64::powi` modelled as iterated rounded multiplication.  Rust lowers
`powi` to `llvm.powi`, whose multiplication order is unspecified; every
strategy built from rounded products of exact powers agrees with this
one on the regimes the theorems below use (all intermediate powers
`≤ 2^53`, where each product is exact, or base 2, where every power of
two is exactly representable). -/
def fpowi (x : ℚ) : ℕ → ℚ
  | 0 => 1
  | k + 1 => fmul (fpowi x k) x

/-- The `as u64` cast of a finite `f64`: truncate toward zero, saturating
at 0 below and `u64::MAX` above.  (`NaN → 0` needs no case: the modelled
pipeline never produces NaN.) -/
def f64toU64 (q : ℚ) : ℕ :=
  if q ≤ 0 then 0 else min ⌊q⌋.toNat (2 ^ 64 - 1)

/-- The `num_dirs_in_tree` computation of `MdtestParam::compute_derived`
(`params.rs:114-125`).  The `branch_factor > 1` branch is the source's
`((bf.powi(depth + 1) - 1.0) / (bf - 1.0)) as u64` with `bf`
the exact `u32 → f64` conversion of `branch_factor`, modelled with the
rounded `f64` operations above. -/
def num_dirs_in_tree (branchFactor : ℕ) (depth : ℤ) : ℕ :=
  if depth ≤ 0 then 1
  else if branchFactor < 1 then 1
  else if branchFactor = 1 then (depth + 1).toNat
  else
    f64toU64 (fdiv (fsub (fpowi (branchFactor : ℚ) (depth.toNat + 1)) 1)
      (fsub (branchFactor : ℚ) 1))

/-- The `items` computed by `compute_derived` when the user supplied
`items_per_dir > 0` and `items = 0` (`params.rs:128-136`): in leaf-only
mode `items_per_dir * ((bf as f64).powi(depth) as u64)`, otherwise
`items_per_dir * num_dirs_in_tree`.  The `u64` product wraps (release
builds); hence the explicit `% 2^64`. -/
def derived_items_from_ipd (branchFactor : ℕ) (depth : ℤ) (leafOnly : Bool)
    (itemsPerDir : ℕ) : ℕ :=
  if leafOnly then
    itemsPerDir * f64toU64 (fpowi (branchFactor : ℚ) depth.toNat) % 2 ^ 64
  else
    itemsPerDir * num_dirs_in_tree branchFactor depth % 2 ^ 64

/-! ### Backend option extraction (`ior-core/src/backend_options.rs`) -/

/-- `OptionValue` (`backend_options.rs:5-10`); strings are modelled as
`List Char`. -/
inductive OptVal
  | Flag
  | Str : List Char → OptVal
  deriving DecidableEq, Repr

/-- Rust `str::split_once(c)`: the parts before and after the first
occurrence of `c`, or `none` when `c` does not occur. -/
def splitOnceChar (c : Char) : List Char → Option (List Char × List Char)
  | [] => none
  | a :: rest =>
    if a = c then some ([], rest)
    else
      match splitOnceChar c rest with
      | some (l, r) => some (a :: l, r)
      | none => none

/-- Rust `str::split(c)` collected into a vector: the (possibly empty)
segments between occurrences of `c`; splitting the empty string yields
one empty segment. -/
def splitAllChar (c : Char) : List Char → List (List Char)
  | [] => [[]]
  | a :: rest =>
    if a = c then [] :: splitAllChar c rest
    else
      match splitAllChar c rest with
      | s :: ss => (a :: s) :: ss
      | [] => [[a]]

/-- `is_backend_option` (`backend_options.rs:89-103`): the argument must
start with `--`, the part before any `=` must split on `.` into at
least two segments, and every segment must be nonempty and consist of
alphanumeric characters, `_` or `-`.  (`char::is_alphanumeric` is
modelled by `Char.isAlphanum`; the two agree on ASCII.) -/
def is_backend_option (arg : List Char) : Bool :=
  match arg with
  | '-' :: '-' :: body =>
    let nm :=
      match splitOnceChar '=' body with
      | some (n, _) => n
      | none => body
    let segments := splitAllChar '.' nm
    decide (2 ≤ segments.length) &&
      segments.all (fun s =>
        !s.isEmpty && s.all (fun ch => ch.isAlphanum || ch = '_' || ch = '-'))
  | _ => false

/-- `extract_backend_options` (`backend_options.rs:115-147`): walk the
argument vector; a non-backend argument is pushed to the filtered list;
`--pfx.key=value` stores `Str value`; `--pfx.key v` with `v` not
starting with `-` consumes `v` as `Str v`; otherwise `--pfx.key` stores
`Flag`.  The last-argument case (`i + 1 < args.len()` false in the
source) is split out as the singleton pattern.  Options are returned in
processing order (the source inserts into a `BTreeMap`, where a later
insert for the same key overwrites, cf. `opt_get`). -/
def extract_backend_options : List (List Char) → List (List Char) × List (List Char × OptVal)
  | [] => ([], [])
  | [arg] =>
    if is_backend_option arg then
      match splitOnceChar '=' (arg.drop 2) with
      | some (nm, value) => ([], [(nm, OptVal.Str value)])
      | none => ([], [(arg.drop 2, OptVal.Flag)])
    else ([arg], [])
  | arg :: next :: rest2 =>
    if is_backend_option arg then
      match splitOnceChar '=' (arg.drop 2) with
      | some (nm, value) =>
        let r := extract_backend_options (next :: rest2)
        (r.1, (nm, OptVal.Str value) :: r.2)
      | none =>
        if next.head? ≠ some '-' then
          let r := extract_backend_options rest2
          (r.1, (arg.drop 2, OptVal.Str next) :: r.2)
        else
          let r := extract_backend_options (next :: rest2)
          (r.1, (arg.drop 2, OptVal.Flag) :: r.2)
    else
      let r := extract_backend_options (next :: rest2)
      (arg :: r.1, r.2)

/-- `BackendOptions::get` on the extracted bundle: a `BTreeMap` insert
overwrites, so lookup returns the value of the last insertion for the
key. -/
def opt_get (opts : List (List Char × OptVal)) (key : List Char) : Option OptVal :=
  (opts.reverse.find? (fun kv => kv.1 = key)).map (·.2)

/-- A concrete outcome sequence for exercising `execute_posix_io`: two
partial 4-byte transfers followed by EOF. -/
def exampleCalls : ℕ → ℤ := fun k => if k < 2 then 4 else 0

/-! ## Lemmas: byte/word layer of the data pattern engine -/

theorem wordBytes_length (v : ℕ) : (wordBytes v).length = 8 := rfl

theorem bytesToWord_wordBytes (v : ℕ) : bytesToWord (wordBytes v) = v % 2 ^ 64 := by
  simp only [bytesToWord, wordBytes, List.foldr_cons, List.foldr_nil]
  omega

theorem tsWord_lt (seed p i : ℕ) : tsWord seed p i < 2 ^ 64 := by
  unfold tsWord
  omega

theorem stampWord_lt (offset p k : ℕ) : stampWord offset p k < 2 ^ 64 := by
  unfold stampWord
  omega

theorem fillWordsAux_zero (buf : List ℕ) (f : ℕ → Option ℕ) (i : ℕ) :
    fillWordsAux buf f i 0 = buf.drop (8 * i) := rfl

theorem fillWordsAux_succ (buf : List ℕ) (f : ℕ → Option ℕ) (i n : ℕ) :
    fillWordsAux buf f i (n + 1) =
      (match f i with
       | some v => wordBytes v
       | none => (buf.drop (8 * i)).take 8) ++ fillWordsAux buf f (i + 1) n := rfl

theorem chunk_length (buf : List ℕ) (f : ℕ → Option ℕ) (i : ℕ)
    (h : 8 * (i + 1) ≤ buf.length) :
    (match f i with
     | some v => wordBytes v
     | none => (buf.drop (8 * i)).take 8).length = 8 := by
  cases f i with
  | none =>
    simp only [List.length_take, List.length_drop]
    omega
  | some v => rfl

theorem fillWordsAux_length (buf : List ℕ) (f : ℕ → Option ℕ) :
    ∀ (n i : ℕ), 8 * (i + n) ≤ buf.length →
      (fillWordsAux buf f i n).length = buf.length - 8 * i := by
  intro n
  induction n with
  | zero => intro i h; simp [fillWordsAux_zero]
  | succ n ih =>
    intro i h
    rw [fillWordsAux_succ, List.length_append, chunk_length buf f i (by omega),
      ih (i + 1) (by omega)]
    omega

theorem fillWordsAux_drop8 (buf : List ℕ) (f : ℕ → Option ℕ) (i n : ℕ)
    (h : 8 * (i + 1) ≤ buf.length) :
    (fillWordsAux buf f i (n + 1)).drop 8 = fillWordsAux buf f (i + 1) n := by
  rw [fillWordsAux_succ]
  exact List.drop_left' (chunk_length buf f i h)

theorem fillWordsAux_take8 (buf : List ℕ) (f : ℕ → Option ℕ) (i n : ℕ)
    (h : 8 * (i + 1) ≤ buf.length) :
    (fillWordsAux buf f i (n + 1)).take 8 =
      (match f i with
       | some v => wordBytes v
       | none => (buf.drop (8 * i)).take 8) := by
  rw [fillWordsAux_succ]
  exact List.take_left' (chunk_length buf f i h)

theorem fillWordsAux_drop (buf : List ℕ) (f : ℕ → Option ℕ) :
    ∀ (j n i : ℕ), j ≤ n → 8 * (i + n) ≤ buf.length →
      (fillWordsAux buf f i n).drop (8 * j) = fillWordsAux buf f (i + j) (n - j) := by
  intro j
  induction j with
  | zero => intro n i _ _; simp
  | succ j ih =>
    intro n i hj hlen
    obtain ⟨m, rfl⟩ : ∃ m, n = m + 1 := ⟨n - 1, by omega⟩
    have h8 : 8 * (j + 1) = 8 + 8 * j := by ring
    rw [h8, ← List.drop_drop, fillWordsAux_drop8 buf f i m (by omega),
      ih m (i + 1) (by omega) (by omega)]
    congr 1 <;> omega

theorem fillWords_length (buf : List ℕ) (f : ℕ → Option ℕ) :
    (fillWords buf f).length = buf.length := by
  unfold fillWords
  rw [fillWordsAux_length buf f (buf.length / 8) 0 (by omega)]
  omega

theorem fillWords_drop_trailing (buf : List ℕ) (f : ℕ → Option ℕ) :
    (fillWords buf f).drop (8 * (buf.length / 8)) = buf.drop (8 * (buf.length / 8)) := by
  unfold fillWords
  rw [fillWordsAux_drop buf f (buf.length / 8) (buf.length / 8) 0 le_rfl (by omega),
    Nat.sub_self, fillWordsAux_zero]
  norm_num

theorem slice_fillWords (buf : List ℕ) (f : ℕ → Option ℕ) (i : ℕ)
    (h : i < buf.length / 8) :
    ((fillWords buf f).drop (8 * i)).take 8 =
      (match f i with
       | some v => wordBytes v
       | none => (buf.drop (8 * i)).take 8) := by
  unfold fillWords
  rw [fillWordsAux_drop buf f i (buf.length / 8) 0 (le_of_lt h) (by omega)]
  obtain ⟨m, hm⟩ : ∃ m, buf.length / 8 - i = m + 1 := ⟨buf.length / 8 - i - 1, by omega⟩
  rw [hm, Nat.zero_add, fillWordsAux_take8 buf f i m (by omega)]

theorem readWord_fillWords (buf : List ℕ) (f : ℕ → Option ℕ) (i : ℕ)
    (h : i < buf.length / 8) :
    readWord (fillWords buf f) i =
      bytesToWord
        (match f i with
         | some v => wordBytes v
         | none => (buf.drop (8 * i)).take 8) := by
  unfold readWord
  rw [slice_fillWords buf f i h]

theorem verify_pattern_zero_of_matches (offset : ℕ) (buf : List ℕ) (seed p : ℕ)
    (dataType : DataPacketType)
    (h : ∀ i < buf.length / 8, readWord buf i = expectedWord offset seed p dataType i) :
    verify_pattern offset buf seed p dataType = 0 := by
  unfold verify_pattern
  rw [List.length_eq_zero, List.filter_eq_nil_iff]
  intro i hi
  rw [List.mem_range] at hi
  simp [h i hi]

theorem readWord_fillWords_some (buf : List ℕ) (f : ℕ → Option ℕ) (i v : ℕ)
    (h : i < buf.length / 8) (hf : f i = some v) :
    readWord (fillWords buf f) i = v % 2 ^ 64 := by
  rw [readWord_fillWords buf f i h, hf]
  exact bytesToWord_wordBytes v

theorem readWord_fillWords_none (buf : List ℕ) (f : ℕ → Option ℕ) (i : ℕ)
    (h : i < buf.length / 8) (hf : f i = none) :
    readWord (fillWords buf f) i = readWord buf i := by
  rw [readWord_fillWords buf f i h, hf]
  rfl

theorem readWord_generate (buf : List ℕ) (seed p : ℕ) (dt : DataPacketType) (i : ℕ)
    (h : i < buf.length / 8) :
    readWord (generate_memory_pattern buf seed p dt) i = tsWord seed p i := by
  unfold generate_memory_pattern
  rw [readWord_fillWords_some buf _ i (tsWord seed p i) h rfl,
    Nat.mod_eq_of_lt (tsWord_lt seed p i)]

theorem readWord_update_generate (buf : List ℕ) (seed p offset : ℕ) (i : ℕ)
    (h : i < buf.length / 8) :
    readWord
      (update_write_pattern offset (generate_memory_pattern buf seed p DataPacketType.Offset)
        seed p DataPacketType.Offset) i =
      if i % 512 = 0 then stampWord offset p (i / 512) else tsWord seed p i := by
  unfold update_write_pattern
  rw [if_pos rfl]
  have hlen : (generate_memory_pattern buf seed p DataPacketType.Offset).length = buf.length :=
    fillWords_length buf _
  have h2 : i < (generate_memory_pattern buf seed p DataPacketType.Offset).length / 8 := by
    rw [hlen]; exact h
  by_cases hmod : i % 512 = 0
  · rw [readWord_fillWords_some _ _ i (stampWord offset p (i / 512)) h2 (by simp [hmod]),
      Nat.mod_eq_of_lt (stampWord_lt offset p (i / 512)), if_pos hmod]
  · rw [readWord_fillWords_none _ _ i h2 (by simp [hmod]), if_neg hmod,
      readWord_generate buf seed p DataPacketType.Offset i h]

theorem readWord_take (buf : List ℕ) (i : ℕ) (h : i < buf.length / 8) :
    readWord (buf.take (8 * (buf.length / 8))) i = readWord buf i := by
  unfold readWord
  rw [List.drop_take, List.take_take, Nat.min_eq_left (by omega)]

theorem verify_pattern_take (offset : ℕ) (buf : List ℕ) (seed p : ℕ)
    (dt : DataPacketType) :
    verify_pattern offset buf seed p dt =
      verify_pattern offset (buf.take (8 * (buf.length / 8))) seed p dt := by
  have hk : 8 * (buf.length / 8) ≤ buf.length := by omega
  have hwords : (buf.take (8 * (buf.length / 8))).length / 8 = buf.length / 8 := by
    rw [List.length_take, Nat.min_eq_left hk,
      Nat.mul_div_cancel_left _ (by norm_num : (0:ℕ) < 8)]
  unfold verify_pattern
  rw [hwords]
  apply congrArg
  apply List.filter_congr
  intro i hi
  rw [List.mem_range] at hi
  rw [readWord_take buf i hi]

theorem generate_length (buf : List ℕ) (seed p : ℕ) (dt : DataPacketType) :
    (generate_memory_pattern buf seed p dt).length = buf.length :=
  fillWords_length buf _

theorem update_length (offset : ℕ) (buf : List ℕ) (seed p : ℕ) (dt : DataPacketType) :
    (update_write_pattern offset buf seed p dt).length = buf.length := by
  cases dt
  · simp [update_write_pattern]
  · exact fillWords_length buf _

/-- C2: for every buffer, seed and pretend rank, `generate_memory_pattern`
followed by `verify_pattern` at any offset returns 0 errors in Timestamp
mode; in Offset mode `generate_memory_pattern` followed by
`update_write_pattern offset` followed by `verify_pattern offset` returns
0 errors; and in Timestamp mode `update_write_pattern` leaves the buffer
unchanged. -/
theorem c2_data_pattern_roundtrip (buf : List ℕ) (seed p offset : ℕ) :
    verify_pattern offset (generate_memory_pattern buf seed p DataPacketType.Timestamp)
      seed p DataPacketType.Timestamp = 0 ∧
    verify_pattern offset
      (update_write_pattern offset (generate_memory_pattern buf seed p DataPacketType.Offset)
        seed p DataPacketType.Offset)
      seed p DataPacketType.Offset = 0 ∧
    update_write_pattern offset buf seed p DataPacketType.Timestamp = buf := by
  refine ⟨?_, ?_, ?_⟩
  · apply verify_pattern_zero_of_matches
    intro i hi
    rw [generate_length buf seed p DataPacketType.Timestamp] at hi
    rw [readWord_generate buf seed p DataPacketType.Timestamp i hi]
    simp [expectedWord]
  · apply verify_pattern_zero_of_matches
    intro i hi
    rw [update_length offset _ seed p DataPacketType.Offset,
      generate_length buf seed p DataPacketType.Offset] at hi
    rw [readWord_update_generate buf seed p offset i hi]
    by_cases hmod : i % 512 = 0
    · simp [expectedWord, hmod]
    · simp [expectedWord, hmod]
  · simp [update_write_pattern]

/-- C10 (implicit): the data-pattern functions act only on whole 64-bit
words — `generate_memory_pattern` and `update_write_pattern` preserve the
buffer length and leave the trailing `len mod 8` bytes unchanged,
`verify_pattern` neither reads nor counts those trailing bytes (its result
only depends on the first `8 * (len / 8)` bytes), and a buffer whose
length is not a multiple of 8 still round-trips with 0 errors in either
packet mode, regardless of the trailing byte values. -/
theorem c10_word_granularity (buf : List ℕ) (seed p offset : ℕ) (dt : DataPacketType) :
    (generate_memory_pattern buf seed p dt).length = buf.length ∧
    (generate_memory_pattern buf seed p dt).drop (8 * (buf.length / 8)) =
      buf.drop (8 * (buf.length / 8)) ∧
    (update_write_pattern offset buf seed p dt).length = buf.length ∧
    (update_write_pattern offset buf seed p dt).drop (8 * (buf.length / 8)) =
      buf.drop (8 * (buf.length / 8)) ∧
    verify_pattern offset buf seed p dt =
      verify_pattern offset (buf.take (8 * (buf.length / 8))) seed p dt ∧
    verify_pattern offset
      (update_write_pattern offset (generate_memory_pattern buf seed p dt) seed p dt)
      seed p dt = 0 := by
  refine ⟨fillWords_length buf _, fillWords_drop_trailing buf _, ?_, ?_, ?_, ?_⟩
  · cases dt
    · simp [update_write_pattern]
    · exact fillWords_length buf _
  · cases dt
    · simp [update_write_pattern]
    · exact fillWords_drop_trailing buf _
  · exact verify_pattern_take offset buf seed p dt
  · cases dt
    · apply verify_pattern_zero_of_matches
      intro i hi
      rw [show update_write_pattern offset
          (generate_memory_pattern buf seed p DataPacketType.Timestamp) seed p
          DataPacketType.Timestamp =
          generate_memory_pattern buf seed p DataPacketType.Timestamp by
        simp [update_write_pattern]] at hi ⊢
      rw [generate_length buf seed p DataPacketType.Timestamp] at hi
      rw [readWord_generate buf seed p DataPacketType.Timestamp i hi]
      simp [expectedWord]
    · apply verify_pattern_zero_of_matches
      intro i hi
      rw [update_length offset _ seed p DataPacketType.Offset,
        generate_length buf seed p DataPacketType.Offset] at hi
      rw [readWord_update_generate buf seed p offset i hi]
      by_cases hmod : i % 512 = 0
      · simp [expectedWord, hmod]
      · simp [expectedWord, hmod]

/-! ## Lemmas: sequential offset geometry -/

theorem seq_offset_upper (T B j : ℕ) (hdvd : T ∣ B) (hj : j < B / T) :
    j * T + T ≤ B := by
  have hcancel : B / T * T = B := Nat.div_mul_cancel hdvd
  calc j * T + T = (j + 1) * T := by ring
    _ ≤ B / T * T := Nat.mul_le_mul_right T hj
    _ = B := hcancel

theorem seqOffsetList_mem_fpp (T B S N p x : ℕ) :
    x ∈ seqOffsetList true T B S N p ↔
      ∃ j, j < B / T ∧ ∃ s, s < S ∧ x = j * T + s * B := by
  simp only [seqOffsetList, List.mem_flatMap, List.mem_map, List.mem_range, if_pos]
  constructor
  · rintro ⟨s, hs, j, hj, rfl⟩
    exact ⟨j, hj, s, hs, rfl⟩
  · rintro ⟨j, hj, s, hs, rfl⟩
    exact ⟨s, hs, j, hj, rfl⟩

theorem seqOffsetList_mem_shared (T B S N p x : ℕ) :
    x ∈ seqOffsetList false T B S N p ↔
      ∃ j, j < B / T ∧ ∃ s, s < S ∧ x = j * T + s * N * B + p * B := by
  simp only [seqOffsetList, List.mem_flatMap, List.mem_map, List.mem_range,
    if_neg (by simp : ¬False)]
  constructor
  · rintro ⟨s, hs, j, hj, rfl⟩
    exact ⟨j, hj, s, hs, rfl⟩
  · rintro ⟨j, hj, s, hs, rfl⟩
    exact ⟨s, hs, j, hj, rfl⟩

theorem seqOffsetList_nodup (filePerProc : Bool) (T B S N p : ℕ)
    (hT : 0 < T) (hdvd : T ∣ B) (hN : 0 < N) :
    (seqOffsetList filePerProc T B S N p).Nodup := by
  unfold seqOffsetList
  rw [List.nodup_flatMap]
  cases filePerProc
  all_goals constructor
  · intro s _
    apply (List.nodup_range (B / T)).map
    intro a b hab
    simp only [Bool.false_eq_true, if_false] at hab
    have hc : a * T = b * T := by omega
    exact Nat.eq_of_mul_eq_mul_right hT hc
  · apply (List.pairwise_lt_range S).imp
    intro s s' hss x hx hx'
    simp only [List.mem_map, List.mem_range, Bool.false_eq_true, if_false] at hx hx'
    obtain ⟨j, hj, hxe⟩ := hx
    obtain ⟨j', hj', hxe'⟩ := hx'
    have h1 : j * T + T ≤ B := seq_offset_upper T B j hdvd hj
    have h2' : s * N * B + N * B ≤ s' * N * B := by
      calc s * N * B + N * B = (s + 1) * N * B := by ring
        _ ≤ s' * N * B := Nat.mul_le_mul_right B (Nat.mul_le_mul_right N hss)
    have hB : B ≤ N * B := Nat.le_mul_of_pos_left B hN
    have hchain : x + T ≤ x := by
      calc x + T = j * T + T + (s * N * B + p * B) := by rw [← hxe]; ring
        _ ≤ B + (s * N * B + p * B) := Nat.add_le_add_right h1 _
        _ ≤ N * B + (s * N * B + p * B) := Nat.add_le_add_right hB _
        _ = s * N * B + N * B + p * B := by ring
        _ ≤ s' * N * B + p * B := Nat.add_le_add_right h2' _
        _ ≤ j' * T + (s' * N * B + p * B) := Nat.le_add_left _ _
        _ = x := by rw [← hxe']; ring
    omega
  · intro s _
    apply (List.nodup_range (B / T)).map
    intro a b hab
    simp only [if_true] at hab
    have hc : a * T = b * T := by omega
    exact Nat.eq_of_mul_eq_mul_right hT hc
  · apply (List.pairwise_lt_range S).imp
    intro s s' hss x hx hx'
    simp only [List.mem_map, List.mem_range, if_true] at hx hx'
    obtain ⟨j, hj, hxe⟩ := hx
    obtain ⟨j', hj', hxe'⟩ := hx'
    have h1 : j * T + T ≤ B := seq_offset_upper T B j hdvd hj
    have h2' : s * B + B ≤ s' * B := by
      calc s * B + B = (s + 1) * B := by ring
        _ ≤ s' * B := Nat.mul_le_mul_right B hss
    have hchain : x + T ≤ x := by
      calc x + T = j * T + T + s * B := by rw [← hxe]; ring
        _ ≤ B + s * B := Nat.add_le_add_right h1 _
        _ = s * B + B := by ring
        _ ≤ s' * B := h2'
        _ ≤ j' * T + s' * B := Nat.le_add_left _ _
        _ = x := hxe'
    omega

theorem shared_offset_decode (T B N p j s : ℕ) (hT : 0 < T) (hdvd : T ∣ B)
    (hp : p < N) (hj : j < B / T) :
    (j * T + s * N * B + p * B) % (N * B) / B = p := by
  have hub : j * T + T ≤ B := seq_offset_upper T B j hdvd hj
  have hBpos : 0 < B := by
    rcases hdvd with ⟨c, rfl⟩
    rcases Nat.eq_zero_or_pos c with rfl | hc
    · simp at hj
    · exact Nat.mul_pos hT hc
  have ha : j * T + p * B < N * B := by
    have hpB : p * B + B ≤ N * B := by
      calc p * B + B = (p + 1) * B := by ring
        _ ≤ N * B := Nat.mul_le_mul_right B hp
    linarith
  have hrw : j * T + s * N * B + p * B = j * T + p * B + s * (N * B) := by ring
  rw [hrw, Nat.add_mul_mod_self_right, Nat.mod_eq_of_lt ha,
    Nat.add_mul_div_right _ _ hBpos, Nat.div_eq_of_lt (by linarith)]
  omega

theorem seqOffsetList_length (filePerProc : Bool) (T B S N p : ℕ) :
    (seqOffsetList filePerProc T B S N p).length = S * (B / T) := by
  simp [seqOffsetList, List.length_flatMap, Function.comp_def, List.map_const]

/-- C1: with `T > 0`, `T ∣ B`, `N > 0` and pretend rank `p < N`, the
sequential inner loop of `write_or_read` issues exactly the offset set
`{j*T + s*B}` in file-per-process mode and `{j*T + s*N*B + p*B}` in
shared-file mode, with no duplicate offsets; across ranks the shared-file
offset lists are pairwise disjoint and total `N * S * B` bytes. -/
theorem c1_sequential_offset_coverage (T B S N p : ℕ) (hT : 0 < T) (hdvd : T ∣ B)
    (hN : 0 < N) (hp : p < N) :
    (∀ x, x ∈ seqOffsetList true T B S N p ↔
        ∃ j, j < B / T ∧ ∃ s, s < S ∧ x = j * T + s * B) ∧
    (seqOffsetList true T B S N p).Nodup ∧
    (∀ x, x ∈ seqOffsetList false T B S N p ↔
        ∃ j, j < B / T ∧ ∃ s, s < S ∧ x = j * T + s * N * B + p * B) ∧
    (seqOffsetList false T B S N p).Nodup ∧
    (∀ q, q < N → q ≠ p →
        (seqOffsetList false T B S N p).Disjoint (seqOffsetList false T B S N q)) ∧
    ((List.range N).flatMap (fun q => seqOffsetList false T B S N q)).length * T
      = N * S * B := by
  refine ⟨fun x => seqOffsetList_mem_fpp T B S N p x,
    seqOffsetList_nodup true T B S N p hT hdvd hN,
    fun x => seqOffsetList_mem_shared T B S N p x,
    seqOffsetList_nodup false T B S N p hT hdvd hN, ?_, ?_⟩
  · intro q hq hqp x hx hx'
    rw [seqOffsetList_mem_shared] at hx hx'
    obtain ⟨j, hj, s, hs, rfl⟩ := hx
    obtain ⟨j', hj', s', hs', he⟩ := hx'
    have hdp := shared_offset_decode T B N p j s hT hdvd hp hj
    have hdq := shared_offset_decode T B N q j' s' hT hdvd hq hj'
    rw [← he] at hdq
    rw [hdp] at hdq
    exact hqp hdq.symm
  · have hlen : ∀ q, (seqOffsetList false T B S N q).length = S * (B / T) :=
      fun q => seqOffsetList_length false T B S N q
    have : ((List.range N).flatMap (fun q => seqOffsetList false T B S N q)).length
        = N * (S * (B / T)) := by
      simp [List.length_flatMap, Function.comp_def, hlen, List.map_const]
    rw [this]
    have hcancel : B / T * T = B := Nat.div_mul_cancel hdvd
    calc N * (S * (B / T)) * T = N * S * (B / T * T) := by ring
      _ = N * S * B := by rw [hcancel]

/-- Witness for C1 at `T = 1`, `B = 2`, `S = 2`, `N = 2`, `p = 1`. -/
theorem c1_sequential_offset_coverage_witness :
    (seqOffsetList true 1 2 2 2 1).Nodup ∧
    ((List.range 2).flatMap (fun q => seqOffsetList false 1 2 2 2 q)).length * 1
      = 2 * 2 * 2 := by
  have h := c1_sequential_offset_coverage 1 2 2 2 1 (by decide) (by decide)
    (by decide) (by decide)
  exact ⟨h.2.1, h.2.2.2.2.2⟩

/-- C4 counterexample: in shared-file sequential mode with `N = 4`,
`T = 4096`, `B = 16384`, `S = 2`, rank 2 (pretend rank 2) never issues
offset 8192, and its offset list is not the claimed
`{8192, 12288, 139264, 143360}` (which also has only 4 elements where the
loop issues `S * B/T = 8` offsets). -/
theorem c4_counterexample :
    8192 ∉ seqOffsetList false 4096 16384 2 4 2 ∧
    ∃ x ∈ seqOffsetList false 4096 16384 2 4 2,
      x ∉ [8192, 12288, 139264, 143360] := by
  refine ⟨by decide, 32768, by decide, by decide⟩

/-- C4 amended: rank 2's write-phase offsets in that configuration are
exactly `j*4096 + s*4*16384 + 2*16384` for `j < 4`, `s < 2`, i.e.
`{32768, 36864, 40960, 45056, 98304, 102400, 106496, 110592}`, in loop
order. -/
theorem c4_shared_offsets_rank2 :
    seqOffsetList false 4096 16384 2 4 2 =
      [32768, 36864, 40960, 45056, 98304, 102400, 106496, 110592] := by decide

/-- C5 (code-bug evidence): the remove phase passes `stonewall_start = 0.0`
(`runner.rs:380-385`, comment "no stonewall for remove") but
`create_remove_items_helper` still applies the stonewall check whenever
`stone_wall_timer_seconds > 0`; with a 1-second timer and the thread
clock at 3 s the remove loop stops before the first of its 5 items.  A
create phase whose `stonewall_start` is the phase start processes all
items while its deadline is not exceeded, and the stat loop has no
stonewall check at all. -/
theorem c5_remove_phase_stonewalls :
    removePhaseItemsDone 5 1 (fun _ => 3) = 0 ∧
    createPhaseItemsDone 5 1 3 (fun _ => 3) = 5 ∧
    mdtest_stat_items 5 = 5 := by
  refine ⟨?_, ?_, rfl⟩
  · norm_num [removePhaseItemsDone, create_remove_items_helper, helperLoop]
  · norm_num [createPhaseItemsDone, create_remove_items_helper, helperLoop]

/-- C6 counterexample: `PosixBackend::delete` on a missing file (unlink
fails with `ENOENT`) returns success for every caller — the function has
no caller information at all — so a caller outside the rank-0 cleanup
path does not receive a NotFound/ENOENT error, contrary to the claim. -/
theorem c6_counterexample : posix_delete (some ENOENT) = Except.ok () := rfl

/-- C6 amended: `delete` silently tolerates a missing file for every
caller: an `ENOENT` unlink failure yields success, any other errno is
reported as `Io(errno)`, and a successful unlink yields success. -/
theorem c6_delete_missing_swallowed (e : ℤ) :
    posix_delete none = Except.ok () ∧
    posix_delete (some e) =
      (if e = ENOENT then Except.ok () else Except.error (IorErr.Io e)) := by
  refine ⟨rfl, ?_⟩
  unfold posix_delete
  by_cases he : e = ENOENT
  · simp [he]
  · simp [he]

/-! ## Lemmas: the f64 rounding model and the derived tree shape -/

theorem roundHalfEven_intCast (k : ℤ) : roundHalfEven (k : ℚ) = k := by
  unfold roundHalfEven
  rw [Int.floor_intCast]
  rw [if_pos (by norm_num)]

theorem int_log2_eq (q : ℚ) (z : ℤ) (hq : 0 < q)
    (h1 : (2 : ℚ) ^ z ≤ q) (h2 : q < (2 : ℚ) ^ (z + 1)) : Int.log 2 q = z := by
  have hle : ((2 : ℕ) : ℚ) ^ Int.log 2 q ≤ q := Int.zpow_log_le_self (by norm_num) hq
  have hub : q < ((2 : ℕ) : ℚ) ^ (Int.log 2 q + 1) :=
    Int.lt_zpow_succ_log_self (by norm_num) q
  have hc : ((2 : ℕ) : ℚ) = (2 : ℚ) := by norm_num
  rw [hc] at hle hub
  rcases lt_trichotomy (Int.log 2 q) z with h | h | h
  · exfalso
    have hmono : (2 : ℚ) ^ (Int.log 2 q + 1) ≤ (2 : ℚ) ^ z :=
      (zpow_le_zpow_iff_right₀ rfl).mpr (by omega)
    linarith
  · exact h
  · exfalso
    have hmono : (2 : ℚ) ^ (z + 1) ≤ (2 : ℚ) ^ Int.log 2 q :=
      (zpow_le_zpow_iff_right₀ rfl).mpr (by omega)
    linarith

theorem roundF64_dyadic (m : ℕ) (hm0 : 0 < m) (hm : m < 2 ^ 53) (z : ℤ) :
    roundF64 ((m : ℚ) * 2 ^ z) = (m : ℚ) * 2 ^ z := by
  have h2z : (0 : ℚ) < 2 ^ z := zpow_pos (by norm_num) z
  have hq : (0 : ℚ) < (m : ℚ) * 2 ^ z := mul_pos (by exact_mod_cast hm0) h2z
  unfold roundF64
  rw [if_neg (not_le.mpr hq)]
  set e := Int.log 2 ((m : ℚ) * 2 ^ z) with he
  have hle : ((2 : ℕ) : ℚ) ^ e ≤ (m : ℚ) * 2 ^ z := Int.zpow_log_le_self (by norm_num) hq
  have hcast2 : ((2 : ℕ) : ℚ) = (2 : ℚ) := by norm_num
  rw [hcast2] at hle
  have hez : e ≤ z + 52 := by
    by_contra hcon
    push_neg at hcon
    have h1 : (2 : ℚ) ^ (z + 53) ≤ (2 : ℚ) ^ e :=
      (zpow_le_zpow_iff_right₀ rfl).mpr (by omega)
    have hmQ : (m : ℚ) < 2 ^ (53 : ℕ) := by exact_mod_cast hm
    have h2 : (m : ℚ) * 2 ^ z < (2 : ℚ) ^ (z + 53) := by
      have : (m : ℚ) * 2 ^ z < 2 ^ (53 : ℕ) * 2 ^ z :=
        mul_lt_mul_of_pos_right hmQ h2z
      calc (m : ℚ) * 2 ^ z < 2 ^ (53 : ℕ) * 2 ^ z := this
        _ = (2 : ℚ) ^ ((53 : ℕ) : ℤ) * 2 ^ z := by rw [zpow_natCast]
        _ = (2 : ℚ) ^ (z + 53) := by
            rw [← zpow_add₀ (by norm_num : (2:ℚ) ≠ 0)]
            congr 1
            omega
    linarith
  obtain ⟨k, hk⟩ : ∃ k : ℕ, z - (e - 52) = (k : ℤ) := ⟨(z - e + 52).toNat, by omega⟩
  have hulp : (0 : ℚ) < 2 ^ (e - 52) := zpow_pos (by norm_num) _
  have hscaled : (m : ℚ) * 2 ^ z / 2 ^ (e - 52) = ((m * 2 ^ k : ℕ) : ℚ) := by
    rw [div_eq_iff (ne_of_gt hulp)]
    push_cast
    rw [← zpow_natCast (2 : ℚ) k, ← hk]
    rw [mul_assoc, ← zpow_add₀ (by norm_num : (2:ℚ) ≠ 0)]
    rw [show z - (e - 52) + (e - 52) = z from by omega]
  rw [hscaled]
  have hnat : ((m * 2 ^ k : ℕ) : ℚ) = (((m * 2 ^ k : ℕ) : ℤ) : ℚ) := by push_cast; ring
  rw [hnat, roundHalfEven_intCast, ← hnat, ← hscaled]
  exact div_mul_cancel₀ _ (ne_of_gt hulp)

theorem roundF64_nat (n : ℕ) (hn : n ≤ 2 ^ 53) : roundF64 (n : ℚ) = (n : ℚ) := by
  rcases Nat.eq_zero_or_pos n with rfl | hpos
  · simp [roundF64]
  · rcases Nat.lt_or_ge n (2 ^ 53) with hlt | hge
    · have := roundF64_dyadic n hpos hlt 0
      simpa using this
    · have hn53 : n = 2 ^ 53 := by omega
      subst hn53
      have := roundF64_dyadic (2 ^ 52) (by norm_num) (by norm_num) 1
      have hval : ((2 ^ 52 : ℕ) : ℚ) * 2 ^ (1 : ℤ) = ((2 ^ 53 : ℕ) : ℚ) := by
        rw [zpow_one]
        push_cast
        norm_num
      rw [hval] at this
      exact this

theorem roundF64_ulp2 : roundF64 ((2 : ℚ) ^ (54 : ℕ) - 1) = 2 ^ (54 : ℕ) := by
  have hq : (0 : ℚ) < 2 ^ (54 : ℕ) - 1 := by norm_num
  unfold roundF64
  rw [if_neg (by norm_num)]
  have hlog : Int.log 2 ((2 : ℚ) ^ (54 : ℕ) - 1) = 53 := by
    apply int_log2_eq _ _ hq
    · rw [show (2:ℚ) ^ (53:ℤ) = 2 ^ (53:ℕ) from by rw [← zpow_natCast]; norm_num]
      norm_num
    · rw [show (2:ℚ) ^ ((53:ℤ) + 1) = 2 ^ (54:ℕ) from by rw [← zpow_natCast]; norm_num]
      norm_num
  rw [hlog]
  norm_num
  have hfl : ⌊(18014398509481983 / 2 : ℚ)⌋ = 9007199254740991 := by
    rw [Int.floor_eq_iff]
    norm_num
  have hrhe : roundHalfEven ((18014398509481983 : ℚ) / 2) = 9007199254740992 := by
    unfold roundHalfEven
    rw [hfl]
    rw [if_neg (by norm_num), if_neg (by norm_num), if_neg (by norm_num)]
    norm_num
  rw [hrhe]
  norm_num

theorem fpowi_exact (bf : ℕ) : ∀ k : ℕ, bf ^ k ≤ 2 ^ 53 →
    fpowi (bf : ℚ) k = ((bf ^ k : ℕ) : ℚ) := by
  intro k
  induction k with
  | zero => intro _; simp [fpowi]
  | succ k ih =>
    intro h
    have hk : bf ^ k ≤ 2 ^ 53 := by
      rcases Nat.eq_zero_or_pos bf with rfl | hbf
      · rcases Nat.eq_zero_or_pos k with rfl | hkpos
        · norm_num
        · rw [Nat.zero_pow (by omega)]
          omega
      · exact le_trans (Nat.pow_le_pow_right hbf (Nat.le_succ k)) h
    rw [show fpowi (bf : ℚ) (k + 1) = fmul (fpowi (bf : ℚ) k) (bf : ℚ) from rfl]
    rw [ih hk]
    unfold fmul
    rw [show ((bf ^ k : ℕ) : ℚ) * (bf : ℚ) = ((bf ^ (k + 1) : ℕ) : ℚ) from by push_cast; ring]
    exact roundF64_nat _ h

theorem fpowi_two (k : ℕ) : fpowi (2 : ℚ) k = 2 ^ k := by
  induction k with
  | zero => simp [fpowi]
  | succ k ih =>
    rw [show fpowi (2 : ℚ) (k + 1) = fmul (fpowi (2 : ℚ) k) 2 from rfl, ih]
    unfold fmul
    rw [show (2 : ℚ) ^ k * 2 = 2 ^ (k + 1) from by ring]
    have h := roundF64_dyadic 1 (by norm_num) (by norm_num) ((k : ℤ) + 1)
    rw [show ((1 : ℕ) : ℚ) * 2 ^ ((k : ℤ) + 1) = 2 ^ ((k : ℤ) + 1) from by norm_num] at h
    rw [show (2 : ℚ) ^ ((k : ℤ) + 1) = 2 ^ (k + 1 : ℕ) from by
      rw [← zpow_natCast (2 : ℚ) (k + 1)]
      norm_num] at h
    exact h

theorem f64toU64_natCast (n : ℕ) (h : n ≤ 2 ^ 64 - 1) : f64toU64 ((n : ℕ) : ℚ) = n := by
  unfold f64toU64
  rcases Nat.eq_zero_or_pos n with rfl | hpos
  · simp
  · rw [if_neg (not_le.mpr (by exact_mod_cast hpos : (0 : ℚ) < (n : ℚ)))]
    rw [Int.floor_natCast]
    simp
    omega

theorem num_dirs_exact (bf d : ℕ) (hbf : 1 < bf) (hd : 0 < d)
    (hpow : bf ^ (d + 1) ≤ 2 ^ 53) :
    num_dirs_in_tree bf (d : ℤ) = (bf ^ (d + 1) - 1) / (bf - 1) := by
  unfold num_dirs_in_tree
  rw [if_neg (by omega : ¬((d : ℕ) : ℤ) ≤ 0), if_neg (by omega : ¬bf < 1),
    if_neg (by omega : ¬bf = 1), show ((d : ℕ) : ℤ).toNat = d from by omega]
  rw [fpowi_exact bf (d + 1) hpow]
  have h1le : 1 ≤ bf ^ (d + 1) := Nat.one_le_pow _ _ (by omega)
  have hbfle : bf ≤ 2 ^ 53 := le_trans (Nat.le_self_pow (by omega) bf) hpow
  have hnum : fsub ((bf ^ (d + 1) : ℕ) : ℚ) 1 = ((bf ^ (d + 1) - 1 : ℕ) : ℚ) := by
    unfold fsub
    rw [show ((bf ^ (d + 1) : ℕ) : ℚ) - 1 = ((bf ^ (d + 1) - 1 : ℕ) : ℚ) from by
      push_cast [h1le]
      ring]
    exact roundF64_nat _ (by omega)
  have hden : fsub ((bf : ℕ) : ℚ) 1 = ((bf - 1 : ℕ) : ℚ) := by
    unfold fsub
    rw [show ((bf : ℕ) : ℚ) - 1 = ((bf - 1 : ℕ) : ℚ) from by
      push_cast [show 1 ≤ bf from by omega]
      ring]
    exact roundF64_nat _ (by omega)
  rw [hnum, hden]
  have hdvd : (bf - 1) ∣ (bf ^ (d + 1) - 1) := by
    have h := nat_sub_dvd_pow_sub_pow bf 1 (d + 1)
    simpa using h
  have hden0 : (0 : ℕ) < bf - 1 := by omega
  have hquot : ((bf ^ (d + 1) - 1 : ℕ) : ℚ) / ((bf - 1 : ℕ) : ℚ) =
      (((bf ^ (d + 1) - 1) / (bf - 1) : ℕ) : ℚ) := by
    rw [Nat.cast_div hdvd (by exact_mod_cast hden0.ne')]
  unfold fdiv
  rw [hquot]
  have hqle : (bf ^ (d + 1) - 1) / (bf - 1) ≤ 2 ^ 53 :=
    le_trans (Nat.div_le_self _ _) (by omega)
  rw [roundF64_nat _ hqle]
  exact f64toU64_natCast _ (by omega)

theorem num_dirs_53 : num_dirs_in_tree 2 53 = 18014398509481984 := by
  unfold num_dirs_in_tree
  rw [if_neg (by norm_num), if_neg (by norm_num), if_neg (by norm_num)]
  rw [show ((53 : ℤ)).toNat + 1 = 54 from rfl,
    show ((2 : ℕ) : ℚ) = (2 : ℚ) from by norm_num]
  rw [fpowi_two 54]
  rw [show fsub ((2 : ℚ) ^ (54 : ℕ)) 1 = 2 ^ (54 : ℕ) from roundF64_ulp2]
  have hden : fsub (2 : ℚ) 1 = 1 := by
    unfold fsub
    norm_num
    have := roundF64_nat 1 (by norm_num)
    simpa using this
  rw [hden]
  have hdiv : fdiv ((2 : ℚ) ^ (54 : ℕ)) 1 = 2 ^ (54 : ℕ) := by
    unfold fdiv
    rw [div_one]
    have h := roundF64_dyadic 1 (by norm_num) (by norm_num) (54 : ℤ)
    rw [show ((1 : ℕ) : ℚ) * 2 ^ (54 : ℤ) = 2 ^ (54 : ℕ) from by
      rw [← zpow_natCast (2 : ℚ) 54]
      norm_num] at h
    exact h
  rw [hdiv]
  rw [show (2 : ℚ) ^ (54 : ℕ) = ((18014398509481984 : ℕ) : ℚ) from by norm_num]
  rw [f64toU64_natCast _ (by norm_num)]

theorem num_dirs_two_three : num_dirs_in_tree 2 3 = 15 := by
  have h := num_dirs_exact 2 3 (by norm_num) (by norm_num) (by norm_num)
  norm_num at h
  exact_mod_cast h

theorem derived_items_two_three : derived_items_from_ipd 2 3 true 10 = 80 := by
  unfold derived_items_from_ipd
  rw [if_pos rfl]
  rw [show ((3 : ℤ)).toNat = 3 from rfl]
  rw [fpowi_exact 2 3 (by norm_num)]
  rw [f64toU64_natCast _ (by norm_num)]
  norm_num

/-- C8 counterexample: at `branch_factor = 2, depth = 53` the program's
f64 pipeline computes `(2^54 - 1.0) / 1.0` — but `2^54 - 1` is not
representable in `f64` and the subtraction rounds (to nearest, ties to
even) up to `2^54`, so `compute_derived` sets `num_dirs_in_tree` to
`2^54 = 18014398509481984`, while the claim's exact formula
`(bf^(d+1) - 1) / (bf - 1)` gives `18014398509481983`. -/
theorem c8_counterexample :
    num_dirs_in_tree 2 (53 : ℤ) = 18014398509481984 ∧
    ((2 : ℕ) ^ (53 + 1) - 1) / (2 - 1) = 18014398509481983 ∧
    num_dirs_in_tree 2 (53 : ℤ) ≠ ((2 : ℕ) ^ (53 + 1) - 1) / (2 - 1) := by
  have h : num_dirs_in_tree 2 53 = 18014398509481984 := num_dirs_53
  refine ⟨h, by norm_num, ?_⟩
  rw [h]
  norm_num

/-- C8 amended: in the f64-exact regime `bf^(d+1) ≤ 2^53` (where every
intermediate float of `params.rs:122-124` is an exactly representable
integer), `compute_derived` sets `num_dirs_in_tree` to
`(bf^(d+1) - 1) / (bf - 1)` for `bf > 1` and to `d + 1` for `bf = 1`;
in particular `bf = 2, d = 3` gives 15, and with `leaf_only` and
`items_per_dir = 10` the derived item total is `10 * 2^3 = 80`.
Outside that regime the rounded pipeline can differ (see the
counterexample at `bf = 2, d = 53`). -/
theorem c8_tree_shape_amended (bf d : ℕ) (hbf : 1 ≤ bf)
    (hexact : bf ^ (d + 1) ≤ 2 ^ 53) :
    num_dirs_in_tree bf (d : ℤ) =
      (if bf = 1 then d + 1 else (bf ^ (d + 1) - 1) / (bf - 1)) ∧
    num_dirs_in_tree 2 3 = 15 ∧
    derived_items_from_ipd 2 3 true 10 = 80 := by
  refine ⟨?_, num_dirs_two_three, derived_items_two_three⟩
  rcases Nat.lt_or_ge 1 bf with hbf2 | hbf2
  · rw [if_neg (by omega : ¬bf = 1)]
    rcases Nat.eq_zero_or_pos d with rfl | hd
    · unfold num_dirs_in_tree
      rw [if_pos (by norm_num : ((0 : ℕ) : ℤ) ≤ 0), pow_one, Nat.div_self (by omega)]
    · exact num_dirs_exact bf d hbf2 hd hexact
  · have h1 : bf = 1 := by omega
    subst h1
    rw [if_pos rfl]
    unfold num_dirs_in_tree
    rcases Nat.eq_zero_or_pos d with rfl | hd
    · norm_num
    · rw [if_neg (by omega : ¬((d : ℕ) : ℤ) ≤ 0), if_neg (by omega : ¬(1 : ℕ) < 1),
        if_pos rfl]
      omega

/-- Witness for the amended C8 at `bf = 3, d = 4` and `bf = 1, d = 7`. -/
theorem c8_tree_shape_amended_witness :
    num_dirs_in_tree 3 ((4 : ℕ) : ℤ) = 121 ∧ num_dirs_in_tree 1 ((7 : ℕ) : ℤ) = 8 := by
  have h3 := (c8_tree_shape_amended 3 4 (by decide) (by decide)).1
  have h1 := (c8_tree_shape_amended 1 7 (by decide) (by decide)).1
  rw [h3, h1]
  constructor <;> norm_num

/-! ## Lemmas: synchronous transfer retry loop -/

theorem execGo_spec (calls : ℕ → ℤ) :
    ∀ (fuel k : ℕ) (remaining : ℤ),
      (execGo calls k remaining fuel).2 ≤ fuel + 1 ∧
      (∀ j, j + 1 < (execGo calls k remaining fuel).2 → 0 < calls (k + j)) ∧
      (∀ rem, (execGo calls k remaining fuel).1 = some rem →
        remaining - rem = ∑ i ∈ Finset.range (execGo calls k remaining fuel).2,
          calls (k + i)) := by
  intro fuel
  induction fuel with
  | zero =>
    intro k remaining
    by_cases h0 : remaining ≤ 0
    · simp [execGo, h0]
    · by_cases hneg : calls k < 0
      · simp [execGo, h0, hneg]
      · by_cases hz : calls k = 0
        · simp [execGo, h0, hneg, hz]
        · simp only [execGo, if_neg h0, if_neg hneg, if_neg hz]
          refine ⟨le_refl 1, fun j hj => by omega, fun rem hrem => ?_⟩
          rw [Option.some_inj] at hrem
          rw [Finset.sum_range_one, ← hrem, Nat.add_zero]
          omega
  | succ f ih =>
    intro k remaining
    by_cases h0 : remaining ≤ 0
    · simp [execGo, h0]
    · by_cases hneg : calls k < 0
      · simp [execGo, h0, hneg]
      · by_cases hz : calls k = 0
        · simp [execGo, h0, hneg, hz]
        · by_cases hrem0 : 0 < remaining - calls k
          · have hred : execGo calls k remaining (f + 1) =
                ((execGo calls (k + 1) (remaining - calls k) f).1,
                 (execGo calls (k + 1) (remaining - calls k) f).2 + 1) := by
              simp only [execGo, if_neg h0, if_neg hneg, if_neg hz, if_pos hrem0]
            obtain ⟨ih1, ih2, ih3⟩ := ih (k + 1) (remaining - calls k)
            rw [hred]
            refine ⟨by omega, ?_, ?_⟩
            · intro j hj
              match j with
              | 0 => simpa using by omega
              | jj + 1 =>
                have hjj : jj + 1 < (execGo calls (k + 1) (remaining - calls k) f).2 := by
                  omega
                have := ih2 jj hjj
                rw [show k + (jj + 1) = k + 1 + jj by omega]
                exact this
            · intro rem hrem
              have hsum := ih3 rem hrem
              rw [Finset.sum_range_succ']
              have hre : ∀ i, calls (k + (i + 1)) = calls (k + 1 + i) := fun i => by
                rw [show k + (i + 1) = k + 1 + i by omega]
              rw [Finset.sum_congr rfl (fun i _ => hre i)]
              have : k + 0 = k := by omega
              rw [this]
              linarith
          · simp only [execGo, if_neg h0, if_neg hneg, if_neg hz, if_neg hrem0]
            refine ⟨by omega, fun j hj => by omega, fun rem hrem => ?_⟩
            rw [Option.some_inj] at hrem
            rw [Finset.sum_range_one, ← hrem, Nat.add_zero]
            omega

/-- C3: for every sequence of per-call `pread`/`pwrite` outcomes, the
synchronous transfer loop makes at most `MAX_RETRY = 10000` backend calls
even if every call returns a partial count; a call that returns 0 (EOF)
is never followed by another call (every non-final call returned a
positive count); and on success the returned byte total is exactly the
sum of the per-call returns, i.e. `len` minus the remaining count. -/
theorem c3_xfer_sync_retry_bound (calls : ℕ → ℤ) (len : ℤ) :
    callCount calls len ≤ MAX_RETRY ∧
    (∀ j, j + 1 < callCount calls len → 0 < calls j) ∧
    (∀ b, execute_posix_io calls len = some b →
      b = ∑ i ∈ Finset.range (callCount calls len), calls i) := by
  obtain ⟨h1, h2, h3⟩ := execGo_spec calls (MAX_RETRY - 1) 0 len
  refine ⟨?_, ?_, ?_⟩
  · unfold callCount
    unfold MAX_RETRY at h1 ⊢
    omega
  · intro j hj
    have := h2 j hj
    simpa using this
  · intro b hb
    unfold execute_posix_io at hb
    cases hrem : (execGo calls 0 len (MAX_RETRY - 1)).1 with
    | none => rw [hrem] at hb; simp at hb
    | some rem =>
      rw [hrem] at hb
      simp at hb
      have hsum := h3 rem hrem
      unfold callCount
      rw [← hb]
      calc len - rem = ∑ i ∈ Finset.range (execGo calls 0 len (MAX_RETRY - 1)).2,
            calls (0 + i) := hsum
        _ = ∑ i ∈ Finset.range (execGo calls 0 len (MAX_RETRY - 1)).2, calls i := by
            exact Finset.sum_congr rfl (fun i _ => by rw [Nat.zero_add])

/-- Witness for C3: with two 4-byte partial transfers then EOF on a
10-byte request, the loop makes 3 calls (EOF stops it) and returns the
8 bytes actually moved. -/
theorem c3_xfer_sync_retry_bound_witness :
    callCount exampleCalls 10 ≤ MAX_RETRY ∧
    execute_posix_io exampleCalls 10 = some 8 ∧
    (8 : ℤ) = ∑ i ∈ Finset.range (callCount exampleCalls 10), exampleCalls i := by
  have h := c3_xfer_sync_retry_bound exampleCalls 10
  exact ⟨h.1, by decide, h.2.2 8 (by decide)⟩

/-! ## Lemmas: random offset geometry -/

theorem fySwap_perm (arr : List ℕ) (i j : ℕ) (hi : i < arr.length) (hj : j < arr.length) :
    List.Perm (fySwap arr i j) arr := by
  rw [List.perm_iff_count]
  intro x
  unfold fySwap
  have hgj : arr.getD j 0 = arr[j] := List.getD_eq_getElem arr 0 hj
  have hgi : arr.getD i 0 = arr[i] := List.getD_eq_getElem arr 0 hi
  rw [hgj, hgi]
  have hj1 : j < (arr.set i arr[j]).length := by simpa using hj
  rw [List.count_set _ _ _ _ hj1, List.count_set _ _ _ _ hi]
  have hsj : (arr.set i arr[j])[j] = arr[j] := by
    by_cases hij : i = j
    · subst hij; simp
    · rw [List.getElem_set_ne hij]
  rw [hsj]
  have hmi : arr[i] ∈ arr := List.getElem_mem hi
  have hmj : arr[j] ∈ arr := List.getElem_mem hj
  have hci : arr[i] = x → 1 ≤ arr.count x := fun he => List.count_pos_iff.mpr (he ▸ hmi)
  have hcj : arr[j] = x → 1 ≤ arr.count x := fun he => List.count_pos_iff.mpr (he ▸ hmj)
  simp only [beq_iff_eq]
  by_cases h1 : arr[i] = x <;> by_cases h2 : arr[j] = x <;> simp [h1, h2] <;> omega

theorem fySwap_length (arr : List ℕ) (i j : ℕ) : (fySwap arr i j).length = arr.length := by
  simp [fySwap]

theorem fyGo_perm (n : ℕ) : ∀ (arr : List ℕ) (state : ℕ), n < arr.length →
    List.Perm (fyGo arr state n) arr := by
  induction n with
  | zero => intro arr state _; exact List.Perm.refl arr
  | succ i ih =>
    intro arr state h
    have hj : lcg_next state / 2 ^ 33 % (i + 2) < arr.length := by
      have := Nat.mod_lt (lcg_next state / 2 ^ 33) (show 0 < i + 2 by omega)
      omega
    have hperm := fySwap_perm arr (i + 1) (lcg_next state / 2 ^ 33 % (i + 2)) h hj
    have hrec := ih (fySwap arr (i + 1) (lcg_next state / 2 ^ 33 % (i + 2))) (lcg_next state)
      (by rw [fySwap_length]; omega)
    exact hrec.trans hperm

theorem fisher_yates_shuffle_perm (arr : List ℕ) (seed : ℕ) :
    List.Perm (fisher_yates_shuffle arr seed) arr := by
  unfold fisher_yates_shuffle
  by_cases h : arr.length ≤ 1
  · rw [if_pos h]
  · rw [if_neg h]
    exact fyGo_perm (arr.length - 1) arr seed (by omega)

theorem flatMap_perm_congr (f g : ℕ → List ℕ) :
    ∀ (l : List ℕ), (∀ x ∈ l, List.Perm (f x) (g x)) →
      List.Perm (l.flatMap f) (l.flatMap g) := by
  intro l
  induction l with
  | nil => intro _; simp
  | cons a l ih =>
    intro h
    simp only [List.flatMap_cons]
    exact (h a (by simp)).append (ih (fun x hx => h x (by simp [hx])))

theorem flatMap_filter_fiber_perm (a : ℕ → ℕ) :
    ∀ (N : ℕ) (l : List ℕ),
      List.Perm ((List.range N).flatMap (fun p => l.filter (fun x => a x = p)))
        (l.filter (fun x => a x < N)) := by
  intro N
  induction N with
  | zero => intro l; simp
  | succ N ih =>
    intro l
    rw [List.range_succ, List.flatMap_append]
    have hN : List.flatMap [N] (fun p => l.filter (fun x => a x = p)) =
        l.filter (fun x => a x = N) := by simp
    rw [hN]
    have h1 : (l.filter (fun x => a x < N + 1)).filter (fun x => a x < N) =
        l.filter (fun x => a x < N) := by
      rw [List.filter_filter]
      apply List.filter_congr
      intro x _
      by_cases hx : a x < N
      · have hx1 : a x < N + 1 := by omega
        simp [hx, hx1]
      · simp [hx]
    have h2 : (l.filter (fun x => a x < N + 1)).filter
        (fun x => !(decide (a x < N))) = l.filter (fun x => a x = N) := by
      rw [List.filter_filter]
      apply List.filter_congr
      intro x _
      by_cases hx : a x = N
      · have h3 : ¬(a x < N) := by omega
        have h4 : a x < N + 1 := by omega
        simp [hx, h3, h4]
      · by_cases hlt : a x < N
        · have hx1 : a x < N + 1 := by omega
          simp [hx, hlt, hx1]
        · by_cases hlt2 : a x < N + 1
          · omega
          · simp [hx, hlt, hlt2]
    have key := List.filter_append_perm (fun x => decide (a x < N))
      (l.filter (fun x => a x < N + 1))
    rw [h1, h2] at key
    exact ((ih l).append_right _).trans key

theorem range_mul_flatMap (opb : ℕ) :
    ∀ N : ℕ, List.range (opb * N) =
      (List.range N).flatMap (fun r => (List.range opb).map (fun j => opb * r + j)) := by
  intro N
  induction N with
  | zero => simp
  | succ N ih =>
    rw [Nat.mul_succ, List.range_add, ih, List.range_succ, List.flatMap_append]
    congr 1
    simp

/-- C7: for every seed the random offset array is a permutation of the
sequential one — `get_offset_array_random` in file-per-process mode
returns a permutation of `{j*T | j < B/T}`, and in shared-file mode the
concatenation over all pretend ranks `0..N` equals, as a multiset, the
sequential grid `{j*T + p*B | j < B/T, p < N}`; only the order differs. -/
theorem c7_random_offset_permutation (T B N seed : ℕ) (hN : 0 < N) :
    (∀ p, List.Perm (get_offset_array_random_fpp T B seed p)
        ((List.range (B / T)).map (· * T))) ∧
    List.Perm
      ((List.range N).flatMap (fun p => get_offset_array_random_shared T B N seed p))
      ((List.range N).flatMap (fun p =>
        (List.range (B / T)).map (fun j => j * T + p * B))) := by
  constructor
  · intro p
    exact fisher_yates_shuffle_perm _ _
  · have stepA : List.Perm
        ((List.range N).flatMap (fun p => get_offset_array_random_shared T B N seed p))
        ((List.range N).flatMap (fun p =>
          ((List.range (B / T * N)).filter (fun idx => assignedRank seed N idx = p)).map
            (fun idx => idx % (B / T) * T + idx / (B / T) * B))) :=
      flatMap_perm_congr _ _ _ (fun p _ => fisher_yates_shuffle_perm _ _)
    have stepB : (List.range N).flatMap (fun p =>
        ((List.range (B / T * N)).filter (fun idx => assignedRank seed N idx = p)).map
          (fun idx => idx % (B / T) * T + idx / (B / T) * B)) =
        ((List.range N).flatMap (fun p =>
          (List.range (B / T * N)).filter (fun idx => assignedRank seed N idx = p))).map
          (fun idx => idx % (B / T) * T + idx / (B / T) * B) := by
      rw [List.map_flatMap]
    have stepC : List.Perm
        (((List.range N).flatMap (fun p =>
          (List.range (B / T * N)).filter (fun idx => assignedRank seed N idx = p))).map
          (fun idx => idx % (B / T) * T + idx / (B / T) * B))
        ((List.range (B / T * N)).map
          (fun idx => idx % (B / T) * T + idx / (B / T) * B)) := by
      apply List.Perm.map
      have hfib := flatMap_filter_fiber_perm (assignedRank seed N) N (List.range (B / T * N))
      have hself : (List.range (B / T * N)).filter
          (fun x => assignedRank seed N x < N) = List.range (B / T * N) := by
        apply List.filter_eq_self.mpr
        intro a _
        simp [Nat.mod_lt _ hN, assignedRank]
      rw [hself] at hfib
      exact hfib
    have stepD : List.Perm
        ((List.range (B / T * N)).map
          (fun idx => idx % (B / T) * T + idx / (B / T) * B))
        ((List.range N).flatMap (fun p =>
          (List.range (B / T)).map (fun j => j * T + p * B))) := by
      rw [range_mul_flatMap (B / T) N, List.map_flatMap]
      apply flatMap_perm_congr
      intro r _
      rw [List.map_map]
      apply List.Perm.of_eq
      apply List.map_congr_left
      intro j hj
      rw [List.mem_range] at hj
      have hopb : 0 < B / T := by omega
      simp only [Function.comp_apply]
      rw [Nat.mul_add_mod, Nat.mod_eq_of_lt hj, Nat.mul_add_div hopb,
        Nat.div_eq_of_lt hj, Nat.add_zero]
    exact ((stepA.trans (List.Perm.of_eq stepB)).trans stepC).trans stepD

/-- Witness for C7 at `T = 1`, `B = 4`, `N = 4`, `seed = 42`. -/
theorem c7_random_offset_permutation_witness :
    List.Perm (get_offset_array_random_fpp 1 4 42 1)
      ((List.range 4).map (· * 1)) ∧
    List.Perm
      ((List.range 4).flatMap (fun p => get_offset_array_random_shared 1 4 4 42 p))
      ((List.range 4).flatMap (fun p => (List.range 4).map (fun j => j * 1 + p * 4))) := by
  have h := c7_random_offset_permutation 1 4 4 42 (by decide)
  exact ⟨h.1 1, h.2⟩

/-! ## Lemmas: backend option extraction -/

theorem extract_backend_options_aux :
    ∀ (n : ℕ) (args : List (List Char)), args.length ≤ n →
      (extract_backend_options args).1.Sublist args ∧
      (∀ a ∈ (extract_backend_options args).1, is_backend_option a = false) := by
  intro n
  induction n with
  | zero =>
    intro args h
    have hnil : args = [] := by
      cases args
      · rfl
      · simp at h
    subst hnil
    simp [extract_backend_options]
  | succ n ih =>
    intro args h
    match args with
    | [] => simp [extract_backend_options]
    | [arg] =>
      by_cases hbo : is_backend_option arg = true
      · cases hsplit : splitOnceChar '=' (arg.drop 2) with
        | some nv =>
          obtain ⟨nm, v⟩ := nv
          rw [show extract_backend_options [arg] = ([], [(nm, OptVal.Str v)]) from by
            simp [extract_backend_options, hbo, hsplit]]
          simp
        | none =>
          rw [show extract_backend_options [arg] = ([], [(arg.drop 2, OptVal.Flag)]) from by
            simp [extract_backend_options, hbo, hsplit]]
          simp
      · rw [show extract_backend_options [arg] = ([arg], []) from by
          simp [extract_backend_options, hbo]]
        refine ⟨List.Sublist.refl _, ?_⟩
        intro a ha
        rcases List.mem_singleton.mp ha with rfl
        simpa using hbo
    | arg :: next :: rest2 =>
      have hlen : (next :: rest2).length ≤ n := by
        simp only [List.length_cons] at h ⊢
        omega
      have hlen2 : rest2.length ≤ n := by
        simp only [List.length_cons] at h
        omega
      by_cases hbo : is_backend_option arg = true
      · cases hsplit : splitOnceChar '=' (arg.drop 2) with
        | some nv =>
          obtain ⟨nm, v⟩ := nv
          rw [show extract_backend_options (arg :: next :: rest2) =
              ((extract_backend_options (next :: rest2)).1,
               (nm, OptVal.Str v) :: (extract_backend_options (next :: rest2)).2) from by
            simp [extract_backend_options, hbo, hsplit]]
          exact ⟨(ih (next :: rest2) hlen).1.cons arg, (ih (next :: rest2) hlen).2⟩
        | none =>
          by_cases hdash : next.head? = some '-'
          · rw [show extract_backend_options (arg :: next :: rest2) =
                ((extract_backend_options (next :: rest2)).1,
                 (arg.drop 2, OptVal.Flag) ::
                   (extract_backend_options (next :: rest2)).2) from by
              simp [extract_backend_options, hbo, hsplit, hdash]]
            exact ⟨(ih (next :: rest2) hlen).1.cons arg, (ih (next :: rest2) hlen).2⟩
          · rw [show extract_backend_options (arg :: next :: rest2) =
                ((extract_backend_options rest2).1,
                 (arg.drop 2, OptVal.Str next) ::
                   (extract_backend_options rest2).2) from by
              simp [extract_backend_options, hbo, hsplit, hdash]]
            exact ⟨((ih rest2 hlen2).1.cons next).cons arg, (ih rest2 hlen2).2⟩
      · rw [show extract_backend_options (arg :: next :: rest2) =
            (arg :: (extract_backend_options (next :: rest2)).1,
             (extract_backend_options (next :: rest2)).2) from by
          simp [extract_backend_options, hbo]]
        refine ⟨(ih (next :: rest2) hlen).1.cons₂ arg, ?_⟩
        intro a ha
        rcases List.mem_cons.mp ha with rfl | ha2
        · simpa using hbo
        · exact (ih (next :: rest2) hlen).2 a ha2

/-- C9: backend option extraction.  The concrete argv
`["prog", "--benchfs.registry=/tmp", "-w", "--posix.odirect",
"--transfer-size", "256k"]` filters to
`["prog", "-w", "--transfer-size", "256k"]` with bundle
`{benchfs.registry = Str "/tmp", posix.odirect = Flag}`; in general the
filtered arguments form an in-order sublist of the argv consisting only
of non-backend arguments, `--pfx.key=value` maps to `Str value`,
`--pfx.key v` consumes `v` as `Str v` exactly when `v` does not start
with `-`, and `--pfx.key` at the end or before a dash-leading argument
maps to `Flag`. -/
theorem c9_backend_option_extraction :
    (extract_backend_options
        ["prog".toList, "--benchfs.registry=/tmp".toList, "-w".toList,
         "--posix.odirect".toList, "--transfer-size".toList, "256k".toList] =
      (["prog".toList, "-w".toList, "--transfer-size".toList, "256k".toList],
       [("benchfs.registry".toList, OptVal.Str "/tmp".toList),
        ("posix.odirect".toList, OptVal.Flag)]) ∧
      opt_get [("benchfs.registry".toList, OptVal.Str "/tmp".toList),
          ("posix.odirect".toList, OptVal.Flag)] "benchfs.registry".toList =
        some (OptVal.Str "/tmp".toList) ∧
      opt_get [("benchfs.registry".toList, OptVal.Str "/tmp".toList),
          ("posix.odirect".toList, OptVal.Flag)] "posix.odirect".toList =
        some OptVal.Flag) ∧
    (∀ args, (extract_backend_options args).1.Sublist args) ∧
    (∀ args a, a ∈ (extract_backend_options args).1 → is_backend_option a = false) ∧
    (∀ arg rest nm v, is_backend_option arg = true →
      splitOnceChar '=' (arg.drop 2) = some (nm, v) →
      extract_backend_options (arg :: rest) =
        ((extract_backend_options rest).1,
         (nm, OptVal.Str v) :: (extract_backend_options rest).2)) ∧
    (∀ arg next rest2, is_backend_option arg = true →
      splitOnceChar '=' (arg.drop 2) = none → next.head? ≠ some '-' →
      extract_backend_options (arg :: next :: rest2) =
        ((extract_backend_options rest2).1,
         (arg.drop 2, OptVal.Str next) :: (extract_backend_options rest2).2)) ∧
    (∀ arg next rest2, is_backend_option arg = true →
      splitOnceChar '=' (arg.drop 2) = none → next.head? = some '-' →
      extract_backend_options (arg :: next :: rest2) =
        ((extract_backend_options (next :: rest2)).1,
         (arg.drop 2, OptVal.Flag) :: (extract_backend_options (next :: rest2)).2)) ∧
    (∀ arg, is_backend_option arg = true → splitOnceChar '=' (arg.drop 2) = none →
      extract_backend_options [arg] = ([], [(arg.drop 2, OptVal.Flag)])) := by
  refine ⟨⟨by decide, by decide, by decide⟩, ?_, ?_, ?_, ?_, ?_, ?_⟩
  · intro args
    exact (extract_backend_options_aux args.length args le_rfl).1
  · intro args a ha
    exact (extract_backend_options_aux args.length args le_rfl).2 a ha
  · intro arg rest nm v hbo hsplit
    cases rest with
    | nil => simp [extract_backend_options, hbo, hsplit]
    | cons next rest2 => simp [extract_backend_options, hbo, hsplit]
  · intro arg next rest2 hbo hsplit hdash
    simp [extract_backend_options, hbo, hsplit, hdash]
  · intro arg next rest2 hbo hsplit hdash
    simp [extract_backend_options, hbo, hsplit, hdash]
  · intro arg hbo hsplit
    simp [extract_backend_options, hbo, hsplit]

/-- Witness for C9: a valueless backend option before a dash-leading
argument becomes a `Flag` and the dash-leading argument is kept. -/
theorem c9_backend_option_extraction_witness :
    extract_backend_options ["--x.y".toList, "-w".toList] =
      (["-w".toList], [("x.y".toList, OptVal.Flag)]) := by
  have h := c9_backend_option_extraction.2.2.2.2.2.1 "--x.y".toList "-w".toList []
    (by decide) (by decide) (by decide)
  rw [h]
  decide

end AsyncIor
